import Mathlib

/-!
Verification of the GEX level calculator against its specification.

The source repository computes five "gamma exposure" price levels from an
options-chain snapshot.  Two variants are embedded here:

* `calculate_gex_v2.1_FIXED.py` (the top-level version): per-side open-interest
  filter, last-writer field assignment per strike, exposure `gamma * oi`,
  zero-gamma by minimum |net exposure| within a 5% price band, and the
  `convert_to_nq` cross-instrument mapper.
* `Old Files/calculate_gex_v2.2.py`: accumulating (`+=`) aggregation, exposure
  `gamma * oi * 100 * price^2 * 0.01`, and the bracketing linear interpolator
  `interpolate_zero_gamma` over the full sorted strike domain.

Numbers are modelled as exact rationals.  Python dicts are modelled as
insertion-ordered association lists, matching Python 3 dict semantics
(`max`/`min` pick the first extremal element in insertion order).  A strike's
contract list is read through its first element only, as the source does with
`contracts[0] if isinstance(contracts, list) else contracts`; an empty contract
list (which would raise IndexError in Python and never occurs in snapshots) is
modelled as a skip.
-/

namespace GEX

/-- One option contract, with the two fields the calculator reads.  The source
reads them as `contract.get('openInterest', 0)` and `contract.get('gamma', 0)`,
so a missing field is the value `0` here. -/
structure Contract where
  openInterest : ℚ
  gamma : ℚ
deriving DecidableEq

/-- One strike row of an expiration map: the strike price (already parsed from
its string key by `float(strike_price)`) and its contract list. -/
abbrev StrikeContracts : Type := ℚ × List Contract

/-- An expiration-date map (`callExpDateMap` / `putExpDateMap`): expiration
keys each holding strike rows, in insertion order. -/
abbrev ExpMap : Type := List (String × List StrikeContracts)

/-- The per-strike record the calculators build in `strikes_data`. -/
structure Entry where
  call_oi : ℚ
  put_oi : ℚ
  call_gamma : ℚ
  put_gamma : ℚ
  call_gex : ℚ
  put_gex : ℚ
deriving DecidableEq

/-- The all-zero record the source installs for a fresh strike. -/
def Entry.init : Entry := ⟨0, 0, 0, 0, 0, 0⟩

/-- `strikes_data`: a Python dict from strike to record, modelled as an
insertion-ordered association list. -/
abbrev StrikesData : Type := List (ℚ × Entry)

/-- Configuration constant `MINIMUM_OI = 100`. -/
def MINIMUM_OI : ℚ := 100

/-- Configuration constant `ROUND_TO = 25`. -/
def ROUND_TO : ℚ := 25

/-- Membership test for a strike key (`strike in strikes_data`). -/
def hasKey : StrikesData → ℚ → Bool
  | [], _ => false
  | (k, _) :: rest, s => if k = s then true else hasKey rest s

/-- In-place update of an existing key's record (`strikes_data[strike][f] = v`). -/
def dictUpdate : StrikesData → ℚ → (Entry → Entry) → StrikesData
  | [], _, _ => []
  | (k, e) :: rest, s, f => if k = s then (k, f e) :: rest else (k, e) :: dictUpdate rest s f

/-- The source's insert-then-mutate idiom: install `Entry.init` when the strike
is new (appended, as Python dicts append fresh keys), then apply the field
updates `f`. -/
def setEntry (d : StrikesData) (s : ℚ) (f : Entry → Entry) : StrikesData :=
  if hasKey d s then dictUpdate d s f else d ++ [(s, f Entry.init)]

/-- Read a strike's record, the zero record when absent. -/
def lookupEntry : StrikesData → ℚ → Entry
  | [], _ => Entry.init
  | (k, e) :: rest, s => if k = s then e else lookupEntry rest s

/-- `contracts[0] if isinstance(contracts, list) else contracts`: only the first
contract of a strike row is read. -/
def firstContract (cs : List Contract) : Option Contract := cs.head?

/-- The shared nested loop over an expiration map: for every expiration, for
every strike row, feed the strike and its first contract to the step. -/
def processMap (step : StrikesData → ℚ → Option Contract → StrikesData)
    (m : ExpMap) (d : StrikesData) : StrikesData :=
  m.foldl (fun acc es => es.2.foldl (fun a sc => step a sc.1 (firstContract sc.2)) acc) d

/-! v2.1 aggregation: filter on the side's open interest, then assign the
side's fields (`=`, last writer wins), with exposure `gamma * oi`. -/

/-- Call-side step of `calculate_gex_v2.1_FIXED.calculate_gex_levels`. -/
def stepCallV21 (d : StrikesData) (s : ℚ) (c? : Option Contract) : StrikesData :=
  match c? with
  | none => d
  | some c =>
    if c.openInterest < MINIMUM_OI then d
    else setEntry d s (fun e =>
      { e with call_oi := c.openInterest, call_gamma := c.gamma,
               call_gex := c.gamma * c.openInterest })

/-- Put-side step of `calculate_gex_v2.1_FIXED.calculate_gex_levels`. -/
def stepPutV21 (d : StrikesData) (s : ℚ) (c? : Option Contract) : StrikesData :=
  match c? with
  | none => d
  | some c =>
    if c.openInterest < MINIMUM_OI then d
    else setEntry d s (fun e =>
      { e with put_oi := c.openInterest, put_gamma := c.gamma,
               put_gex := -(c.gamma * c.openInterest) })

def processCallsV21 (m : ExpMap) (d : StrikesData) : StrikesData := processMap stepCallV21 m d

def processPutsV21 (m : ExpMap) (d : StrikesData) : StrikesData := processMap stepPutV21 m d

/-! v2.2 aggregation: same filter, but accumulating (`+=`) aggregation and the
industry formula `gamma * oi * 100 * price^2 * 0.01`. -/

/-- Call-side step of `calculate_gex_v2.2.calculate_gex_levels`. -/
def stepCallV22 (p : ℚ) (d : StrikesData) (s : ℚ) (c? : Option Contract) : StrikesData :=
  match c? with
  | none => d
  | some c =>
    if c.openInterest < MINIMUM_OI then d
    else setEntry d s (fun e =>
      { e with call_oi := e.call_oi + c.openInterest,
               call_gamma := e.call_gamma + c.gamma,
               call_gex := e.call_gex + c.gamma * c.openInterest * 100 * p * p * 0.01 })

/-- Put-side step of `calculate_gex_v2.2.calculate_gex_levels`. -/
def stepPutV22 (p : ℚ) (d : StrikesData) (s : ℚ) (c? : Option Contract) : StrikesData :=
  match c? with
  | none => d
  | some c =>
    if c.openInterest < MINIMUM_OI then d
    else setEntry d s (fun e =>
      { e with put_oi := e.put_oi + c.openInterest,
               put_gamma := e.put_gamma + c.gamma,
               put_gex := e.put_gex + -(c.gamma * c.openInterest * 100 * p * p * 0.01) })

def processCallsV22 (p : ℚ) (m : ExpMap) (d : StrikesData) : StrikesData :=
  processMap (stepCallV22 p) m d

def processPutsV22 (p : ℚ) (m : ExpMap) (d : StrikesData) : StrikesData :=
  processMap (stepPutV22 p) m d

/-! Sorting of strike keys (`sorted(strikes_data.keys())`), by insertion sort
over the association list; dict keys are distinct so stability is moot. -/

def insertSorted (x : ℚ × α) : List (ℚ × α) → List (ℚ × α)
  | [] => [x]
  | y :: ys => if x.1 ≤ y.1 then x :: y :: ys else y :: insertSorted x ys

def sortByStrike (l : List (ℚ × α)) : List (ℚ × α) := l.foldr insertSorted []

/-! The v2.2 zero-crossing interpolator. -/

/-- Net exposure per strike in ascending strike order, as built at the top of
`interpolate_zero_gamma`. -/
def netGexByStrike (d : StrikesData) : List (ℚ × ℚ) :=
  (sortByStrike d).map (fun se => (se.1, se.2.call_gex + se.2.put_gex))

/-- The bracket test of `interpolate_zero_gamma`:
`(gex1 <= 0 <= gex2) or (gex2 <= 0 <= gex1)` for adjacent `(strike, net)` pairs. -/
def isBracket (a b : ℚ × ℚ) : Prop := (a.2 ≤ 0 ∧ 0 ≤ b.2) ∨ (b.2 ≤ 0 ∧ 0 ≤ a.2)

instance (a b : ℚ × ℚ) : Decidable (isBracket a b) :=
  inferInstanceAs (Decidable ((a.2 ≤ 0 ∧ 0 ≤ b.2) ∨ (b.2 ≤ 0 ∧ 0 ≤ a.2)))

/-- The crossing value for a bracketing pair: `strike1` when the two net
exposures are equal, otherwise the linear interpolation
`strike1 + (strike2 - strike1) * (-gex1) / (gex2 - gex1)`. -/
def interpAt (a b : ℚ × ℚ) : ℚ :=
  if b.2 = a.2 then a.1 else a.1 + (b.1 - a.1) * (-a.2) / (b.2 - a.2)

/-- The bracket scan of `interpolate_zero_gamma`: the first adjacent pair whose
net exposures straddle zero yields the (possibly interpolated) crossing. -/
def findCrossing : List (ℚ × ℚ) → Option ℚ
  | a :: b :: rest =>
    if isBracket a b then some (interpAt a b)
    else findCrossing (b :: rest)
  | _ => none

/-- `interpolate_zero_gamma` of `calculate_gex_v2.2.py`: scan the full sorted
domain; fall back to the underlying price when no bracket exists. -/
def interpolate_zero_gamma (d : StrikesData) (p : ℚ) : ℚ :=
  (findCrossing (netGexByStrike d)).getD p

/-! Level extraction, shared by both versions.  Python's `max(l, key=k)` and
`min(l, key=k)` return the first extremal element in list order. -/

def pyMaxBy (key : α → ℚ) (x : α) (xs : List α) : α :=
  xs.foldl (fun acc y => if key acc < key y then y else acc) x

def pyMinBy (key : α → ℚ) (x : α) (xs : List α) : α :=
  xs.foldl (fun acc y => if key y < key acc then y else acc) x

/-- `[(s, d['call_oi']) for s, d in strikes_data.items() if d['call_oi'] > 0]`. -/
def callOiData (d : StrikesData) : List (ℚ × ℚ) :=
  d.filterMap (fun se => if 0 < se.2.call_oi then some (se.1, se.2.call_oi) else none)

def putOiData (d : StrikesData) : List (ℚ × ℚ) :=
  d.filterMap (fun se => if 0 < se.2.put_oi then some (se.1, se.2.put_oi) else none)

def callGexData (d : StrikesData) : List (ℚ × ℚ) :=
  d.filterMap (fun se => if 0 < se.2.call_gex then some (se.1, se.2.call_gex) else none)

def putGexData (d : StrikesData) : List (ℚ × ℚ) :=
  d.filterMap (fun se => if se.2.put_gex < 0 then some (se.1, se.2.put_gex) else none)

/-- Level 1: strike of maximal call open interest, defaulting to the price. -/
def callOiLevel (d : StrikesData) (p : ℚ) : ℚ :=
  match callOiData d with
  | [] => p
  | x :: xs => (pyMaxBy Prod.snd x xs).1

/-- Level 5: strike of maximal put open interest, defaulting to the price. -/
def putOiLevel (d : StrikesData) (p : ℚ) : ℚ :=
  match putOiData d with
  | [] => p
  | x :: xs => (pyMaxBy Prod.snd x xs).1

/-- Level 2: strike of maximal positive call exposure, defaulting to the price. -/
def posGexLevel (d : StrikesData) (p : ℚ) : ℚ :=
  match callGexData d with
  | [] => p
  | x :: xs => (pyMaxBy Prod.snd x xs).1

/-- Level 4: strike of most negative put exposure, defaulting to the price. -/
def negGexLevel (d : StrikesData) (p : ℚ) : ℚ :=
  match putGexData d with
  | [] => p
  | x :: xs => (pyMinBy Prod.snd x xs).1

/-- The v2.1 zero-gamma candidate list: sorted strikes within the 5% price
band that carry activity, paired with their net exposure. -/
def zeroGammaCandidatesV21 (d : StrikesData) (p : ℚ) : List (ℚ × ℚ) :=
  (sortByStrike d).filterMap (fun se =>
    if p - p * 0.05 ≤ se.1 ∧ se.1 ≤ p + p * 0.05 then
      if se.2.call_gex ≠ 0 ∨ se.2.put_gex ≠ 0 then
        some (se.1, se.2.call_gex + se.2.put_gex)
      else none
    else none)

/-- Level 3 in v2.1: the candidate strike of minimal |net exposure|, the
underlying price when no candidate exists. -/
def zeroGammaLevelV21 (d : StrikesData) (p : ℚ) : ℚ :=
  match zeroGammaCandidatesV21 d p with
  | [] => p
  | x :: xs => (pyMinBy (fun y => |y.2|) x xs).1

/-! The v2.1 top-level pipeline. -/

/-- The raw snapshot dict as `calculate_gex_levels` reads it: every field is
optional because the source guards with `data.get(...)` / `'key' in data`. -/
structure SnapshotData where
  underlyingPrice : Option ℚ
  callExpDateMap : Option ExpMap
  putExpDateMap : Option ExpMap
  nq_price : Option ℚ
deriving DecidableEq

/-- The `strikes_data` dict after both passes of
`calculate_gex_v2.1_FIXED.calculate_gex_levels`. -/
def strikesDataV21 (data : SnapshotData) : StrikesData :=
  let d1 := match data.callExpDateMap with
    | some m => processCallsV21 m []
    | none => []
  match data.putExpDateMap with
  | some m => processPutsV21 m d1
  | none => d1

/-- `calculate_gex_v2.1_FIXED.calculate_gex_levels`: the returned dict, in the
source's key order.  The underlying price defaults to 610.0 when absent. -/
def calculate_gex_levels (data : SnapshotData) : List (String × ℚ) :=
  let p := data.underlyingPrice.getD 610
  let d := strikesDataV21 data
  let net_gex := (d.map (fun se => se.2.call_gex)).sum + (d.map (fun se => se.2.put_gex)).sum
  [("call_oi", callOiLevel d p),
   ("pos_gex", posGexLevel d p),
   ("zero_gamma", zeroGammaLevelV21 d p),
   ("neg_gex", negGexLevel d p),
   ("put_oi", putOiLevel d p),
   ("qqq_price", p),
   ("net_gex", net_gex)]

/-- `levels[key]`, assuming the key is present (as all call sites do). -/
def dictGet : List (String × ℚ) → String → ℚ
  | [], _ => 0
  | (k2, v) :: rest, k => if k2 = k then v else dictGet rest k

/-- Key lookup that records absence, for stating which keys the output carries. -/
def lookupLevel : List (String × ℚ) → String → Option ℚ
  | [], _ => none
  | (k2, v) :: rest, k => if k2 = k then some v else lookupLevel rest k

/-- Python's `round`: nearest integer, halves to the even neighbour. -/
def pyRound (q : ℚ) : ℤ :=
  if q - ⌊q⌋ < 1 / 2 then ⌊q⌋
  else if 1 / 2 < q - ⌊q⌋ then ⌊q⌋ + 1
  else if ⌊q⌋ % 2 = 0 then ⌊q⌋ else ⌊q⌋ + 1

/-- `calculate_gex_v2.1_FIXED.convert_to_nq`: dynamic ratio from the live
correlated price when available and positive, else the fallback `41.36`; each
level except `qqq_price` and `net_gex` is rounded to `ROUND_TO`. -/
def convert_to_nq (levels : List (String × ℚ)) (data : SnapshotData) :
    List (String × ℚ) × ℚ :=
  let qqq_price := dictGet levels "qqq_price"
  let ratio : ℚ := match data.nq_price with
    | some nq => if 0 < nq then nq / qqq_price else 41.36
    | none => 41.36
  let nq_levels := levels.filterMap (fun lv =>
    if lv.1 = "qqq_price" ∨ lv.1 = "net_gex" then none
    else some (lv.1, (pyRound (lv.2 * ratio / ROUND_TO) : ℚ) * ROUND_TO))
  (nq_levels, ratio)

end GEX

namespace GEX

/-! Association-list dictionary lemmas. -/

theorem hasKey_false_lookup {d : StrikesData} {k : ℚ} (h : hasKey d k = false) :
    lookupEntry d k = Entry.init := by
  induction d with
  | nil => rfl
  | cons x rest ih =>
    obtain ⟨k2, e⟩ := x
    by_cases hk : k2 = k
    · simp [hasKey, hk] at h
    · simp only [lookupEntry, if_neg hk]
      exact ih (by simpa [hasKey, hk] using h)

theorem dictUpdate_not_has {d : StrikesData} {k : ℚ} {f : Entry → Entry}
    (h : hasKey d k = false) : dictUpdate d k f = d := by
  induction d with
  | nil => rfl
  | cons x rest ih =>
    obtain ⟨k2, e⟩ := x
    by_cases hk : k2 = k
    · simp [hasKey, hk] at h
    · simp only [dictUpdate, if_neg hk]
      rw [ih (by simpa [hasKey, hk] using h)]

theorem lookupEntry_dictUpdate_self {d : StrikesData} {k : ℚ} {f : Entry → Entry}
    (h : hasKey d k = true) :
    lookupEntry (dictUpdate d k f) k = f (lookupEntry d k) := by
  induction d with
  | nil => simp [hasKey] at h
  | cons x rest ih =>
    obtain ⟨k2, e⟩ := x
    by_cases hk : k2 = k
    · simp [dictUpdate, lookupEntry, hk]
    · simp only [dictUpdate, if_neg hk, lookupEntry]
      exact ih (by simpa [hasKey, hk] using h)

theorem lookupEntry_dictUpdate_ne {d : StrikesData} {k s : ℚ} {f : Entry → Entry}
    (h : k ≠ s) : lookupEntry (dictUpdate d k f) s = lookupEntry d s := by
  induction d with
  | nil => rfl
  | cons x rest ih =>
    obtain ⟨k2, e⟩ := x
    by_cases hk : k2 = k
    · subst hk
      simp [dictUpdate, lookupEntry, if_neg h]
    · simp only [dictUpdate, if_neg hk, lookupEntry]
      by_cases hs : k2 = s
      · simp [hs]
      · simp [hs, ih]

theorem lookupEntry_append_single {d : StrikesData} {k s : ℚ} {e : Entry} :
    lookupEntry (d ++ [(k, e)]) s =
      if hasKey d s then lookupEntry d s else if k = s then e else Entry.init := by
  induction d with
  | nil => simp [lookupEntry, hasKey]
  | cons x rest ih =>
    obtain ⟨k2, e2⟩ := x
    by_cases hs : k2 = s
    · simp [lookupEntry, hasKey, hs]
    · simp [lookupEntry, hasKey, hs, ih]

theorem lookupEntry_setEntry {d : StrikesData} {k s : ℚ} {f : Entry → Entry} :
    lookupEntry (setEntry d k f) s =
      if k = s then f (lookupEntry d k) else lookupEntry d s := by
  unfold setEntry
  by_cases hhas : hasKey d k
  · simp only [hhas, if_true]
    by_cases hk : k = s
    · subst hk; simp [lookupEntry_dictUpdate_self hhas]
    · simp [hk, lookupEntry_dictUpdate_ne hk]
  · have hf : hasKey d k = false := by simpa using hhas
    simp only [hf, Bool.false_eq_true, if_false]
    rw [lookupEntry_append_single]
    by_cases hk : k = s
    · subst hk
      simp [hf, hasKey_false_lookup hf]
    · by_cases hds : hasKey d s
      · simp [hk, hds]
      · have hfs : hasKey d s = false := by simpa using hds
        simp [hk, hds, hasKey_false_lookup hfs]

theorem hasKey_dictUpdate {d : StrikesData} {k s : ℚ} {f : Entry → Entry} :
    hasKey (dictUpdate d k f) s = hasKey d s := by
  induction d with
  | nil => rfl
  | cons x rest ih =>
    obtain ⟨k2, e⟩ := x
    by_cases hk : k2 = k
    · simp [dictUpdate, hasKey, hk]
    · simp [dictUpdate, hasKey, hk, ih]

theorem hasKey_append_single {d : StrikesData} {k s : ℚ} {e : Entry} :
    hasKey (d ++ [(k, e)]) s = (hasKey d s || decide (k = s)) := by
  induction d with
  | nil => simp [hasKey]
  | cons x rest ih =>
    obtain ⟨k2, e2⟩ := x
    by_cases hs : k2 = s
    · simp [hasKey, hs]
    · simp [hasKey, hs, ih]

theorem hasKey_setEntry {d : StrikesData} {k s : ℚ} {f : Entry → Entry} :
    hasKey (setEntry d k f) s = (hasKey d s || decide (k = s)) := by
  unfold setEntry
  by_cases hhas : hasKey d k
  · by_cases hk : k = s
    · subst hk; simp [hhas, hasKey_dictUpdate]
    · simp [hhas, hasKey_dictUpdate, hk]
  · simp [hhas, hasKey_append_single]

theorem hasKey_of_mem {d : StrikesData} {k : ℚ} {e : Entry} (h : (k, e) ∈ d) :
    hasKey d k = true := by
  induction d with
  | nil => simp at h
  | cons x rest ih =>
    obtain ⟨k2, e2⟩ := x
    rcases List.mem_cons.1 h with h1 | h1
    · obtain ⟨rfl, rfl⟩ := Prod.mk.injEq .. ▸ h1
      simp [hasKey]
    · by_cases hk : k2 = k <;> simp [hasKey, hk, ih h1]

/-! Sorting lemmas. -/

theorem mem_insertSorted {x a : ℚ × α} {l : List (ℚ × α)} :
    a ∈ insertSorted x l ↔ a = x ∨ a ∈ l := by
  induction l with
  | nil => simp [insertSorted]
  | cons y ys ih =>
    by_cases h : x.1 ≤ y.1
    · simp [insertSorted, h]
    · simp only [insertSorted, if_neg h, List.mem_cons, ih]
      tauto

theorem mem_sortByStrike {a : ℚ × α} {l : List (ℚ × α)} :
    a ∈ sortByStrike l ↔ a ∈ l := by
  induction l with
  | nil => simp [sortByStrike]
  | cons y ys ih =>
    simp only [sortByStrike, List.foldr_cons, List.mem_cons]
    rw [show List.foldr insertSorted [] ys = sortByStrike ys from rfl] at *
    rw [mem_insertSorted, ih]

theorem pairwise_insertSorted {x : ℚ × α} {l : List (ℚ × α)}
    (h : l.Pairwise (fun a b => a.1 ≤ b.1)) :
    (insertSorted x l).Pairwise (fun a b => a.1 ≤ b.1) := by
  induction l with
  | nil => simp [insertSorted]
  | cons y ys ih =>
    by_cases hle : x.1 ≤ y.1
    · simp only [insertSorted, if_pos hle]
      refine List.pairwise_cons.2 ⟨?_, h⟩
      intro b hb
      rcases List.mem_cons.1 hb with rfl | hb
      · exact hle
      · exact le_trans hle ((List.pairwise_cons.1 h).1 b hb)
    · have hyx : y.1 ≤ x.1 := le_of_not_le hle
      simp only [insertSorted, if_neg hle]
      refine List.pairwise_cons.2 ⟨?_, ih (List.pairwise_cons.1 h).2⟩
      intro b hb
      rcases mem_insertSorted.1 hb with rfl | hb
      · exact hyx
      · exact (List.pairwise_cons.1 h).1 b hb

theorem sortByStrike_pairwise (l : List (ℚ × α)) :
    (sortByStrike l).Pairwise (fun a b => a.1 ≤ b.1) := by
  induction l with
  | nil => simp [sortByStrike]
  | cons y ys ih => exact pairwise_insertSorted ih

end GEX

namespace GEX

/-! Lemmas about Python-style `max(l, key=k)` / `min(l, key=k)`: both return
the first extremal element in list order. -/

theorem pyMaxBy_cons (key : α → ℚ) (x y : α) (ys : List α) :
    pyMaxBy key x (y :: ys) = pyMaxBy key (if key x < key y then y else x) ys := rfl

theorem pyMinBy_cons (key : α → ℚ) (x y : α) (ys : List α) :
    pyMinBy key x (y :: ys) = pyMinBy key (if key y < key x then y else x) ys := rfl

theorem pyMaxBy_mem (key : α → ℚ) (x : α) (xs : List α) :
    pyMaxBy key x xs ∈ x :: xs := by
  induction xs generalizing x with
  | nil => simp [pyMaxBy]
  | cons y ys ih =>
    rw [pyMaxBy_cons]
    by_cases hxy : key x < key y
    · simp only [if_pos hxy]
      rcases List.mem_cons.1 (ih y) with h | h
      · rw [h]; exact List.mem_cons_of_mem _ (List.mem_cons_self _ _)
      · exact List.mem_cons_of_mem _ (List.mem_cons_of_mem _ h)
    · simp only [if_neg hxy]
      rcases List.mem_cons.1 (ih x) with h | h
      · rw [h]; exact List.mem_cons_self _ _
      · exact List.mem_cons_of_mem _ (List.mem_cons_of_mem _ h)

theorem pyMinBy_mem (key : α → ℚ) (x : α) (xs : List α) :
    pyMinBy key x xs ∈ x :: xs := by
  induction xs generalizing x with
  | nil => simp [pyMinBy]
  | cons y ys ih =>
    rw [pyMinBy_cons]
    by_cases hxy : key y < key x
    · simp only [if_pos hxy]
      rcases List.mem_cons.1 (ih y) with h | h
      · rw [h]; exact List.mem_cons_of_mem _ (List.mem_cons_self _ _)
      · exact List.mem_cons_of_mem _ (List.mem_cons_of_mem _ h)
    · simp only [if_neg hxy]
      rcases List.mem_cons.1 (ih x) with h | h
      · rw [h]; exact List.mem_cons_self _ _
      · exact List.mem_cons_of_mem _ (List.mem_cons_of_mem _ h)

/-- Python's `max` keeps the current element on ties, so the result is the
first element attaining the maximal key: strictly greater than everything
before it, and at least everything in the list. -/
theorem pyMaxBy_first (key : α → ℚ) (x : α) (xs : List α) :
    ∃ l1 l2, x :: xs = l1 ++ pyMaxBy key x xs :: l2 ∧
      (∀ y ∈ l1, key y < key (pyMaxBy key x xs)) ∧
      (∀ y ∈ x :: xs, key y ≤ key (pyMaxBy key x xs)) := by
  induction xs generalizing x with
  | nil =>
    refine ⟨[], [], rfl, by simp, ?_⟩
    intro y hy
    rcases List.mem_cons.1 hy with rfl | hy
    · exact le_refl _
    · simp at hy
  | cons y ys ih =>
    rw [pyMaxBy_cons]
    by_cases hxy : key x < key y
    · simp only [if_pos hxy]
      obtain ⟨l1, l2, hdec, hlt, hle⟩ := ih y
      refine ⟨x :: l1, l2, by rw [List.cons_append, ← hdec], ?_, ?_⟩
      · intro w hw
        rcases List.mem_cons.1 hw with rfl | hw
        · exact lt_of_lt_of_le hxy (hle y (List.mem_cons_self _ _))
        · exact hlt w hw
      · intro w hw
        rcases List.mem_cons.1 hw with rfl | hw
        · exact le_of_lt (lt_of_lt_of_le hxy (hle y (List.mem_cons_self _ _)))
        · exact hle w hw
    · simp only [if_neg hxy]
      have hyx : key y ≤ key x := le_of_not_lt hxy
      obtain ⟨l1, l2, hdec, hlt, hle⟩ := ih x
      cases l1 with
      | nil =>
        have hx : pyMaxBy key x ys = x := by
          have := hdec
          simp only [List.nil_append] at this
          exact (List.cons.injEq .. ▸ this).1.symm
        have hys : ys = l2 := by
          have := hdec
          simp only [List.nil_append] at this
          exact (List.cons.injEq .. ▸ this).2
        refine ⟨[], y :: ys, by simp [hx], by simp, ?_⟩
        intro w hw
        rcases List.mem_cons.1 hw with rfl | hw
        · exact hle w (List.mem_cons_self _ _)
        · rcases List.mem_cons.1 hw with rfl | hw
          · exact le_trans hyx (hle x (List.mem_cons_self _ _))
          · exact hle w (List.mem_cons_of_mem _ hw)
      | cons a l1' =>
        have ha : a = x := by
          have := hdec
          simp only [List.cons_append] at this
          exact ((List.cons.injEq .. ▸ this).1).symm
        have hys : ys = l1' ++ pyMaxBy key x ys :: l2 := by
          have := hdec
          simp only [List.cons_append] at this
          exact (List.cons.injEq .. ▸ this).2
        have hxlt : key x < key (pyMaxBy key x ys) :=
          ha ▸ hlt a (List.mem_cons_self _ _)
        refine ⟨x :: y :: l1', l2, ?_, ?_, ?_⟩
        · simp only [List.cons_append, ← hys]
        · intro w hw
          rcases List.mem_cons.1 hw with rfl | hw
          · exact hxlt
          · rcases List.mem_cons.1 hw with rfl | hw
            · exact lt_of_le_of_lt hyx hxlt
            · exact hlt w (ha ▸ List.mem_cons_of_mem _ hw)
        · intro w hw
          rcases List.mem_cons.1 hw with rfl | hw
          · exact hle w (List.mem_cons_self _ _)
          · rcases List.mem_cons.1 hw with rfl | hw
            · exact le_trans hyx (hle x (List.mem_cons_self _ _))
            · exact hle w (List.mem_cons_of_mem _ hw)

/-- Mirror image of `pyMaxBy_first` for Python's `min`. -/
theorem pyMinBy_first (key : α → ℚ) (x : α) (xs : List α) :
    ∃ l1 l2, x :: xs = l1 ++ pyMinBy key x xs :: l2 ∧
      (∀ y ∈ l1, key (pyMinBy key x xs) < key y) ∧
      (∀ y ∈ x :: xs, key (pyMinBy key x xs) ≤ key y) := by
  induction xs generalizing x with
  | nil =>
    refine ⟨[], [], rfl, by simp, ?_⟩
    intro y hy
    rcases List.mem_cons.1 hy with rfl | hy
    · exact le_refl _
    · simp at hy
  | cons y ys ih =>
    rw [pyMinBy_cons]
    by_cases hxy : key y < key x
    · simp only [if_pos hxy]
      obtain ⟨l1, l2, hdec, hlt, hle⟩ := ih y
      refine ⟨x :: l1, l2, by rw [List.cons_append, ← hdec], ?_, ?_⟩
      · intro w hw
        rcases List.mem_cons.1 hw with rfl | hw
        · exact lt_of_le_of_lt (hle y (List.mem_cons_self _ _)) hxy
        · exact hlt w hw
      · intro w hw
        rcases List.mem_cons.1 hw with rfl | hw
        · exact le_of_lt (lt_of_le_of_lt (hle y (List.mem_cons_self _ _)) hxy)
        · exact hle w hw
    · simp only [if_neg hxy]
      have hyx : key x ≤ key y := le_of_not_lt hxy
      obtain ⟨l1, l2, hdec, hlt, hle⟩ := ih x
      cases l1 with
      | nil =>
        have hx : pyMinBy key x ys = x := by
          have := hdec
          simp only [List.nil_append] at this
          exact (List.cons.injEq .. ▸ this).1.symm
        have hys : ys = l2 := by
          have := hdec
          simp only [List.nil_append] at this
          exact (List.cons.injEq .. ▸ this).2
        refine ⟨[], y :: ys, by simp [hx], by simp, ?_⟩
        intro w hw
        rcases List.mem_cons.1 hw with rfl | hw
        · exact hle w (List.mem_cons_self _ _)
        · rcases List.mem_cons.1 hw with rfl | hw
          · exact le_trans (hle x (List.mem_cons_self _ _)) hyx
          · exact hle w (List.mem_cons_of_mem _ hw)
      | cons a l1' =>
        have ha : a = x := by
          have := hdec
          simp only [List.cons_append] at this
          exact ((List.cons.injEq .. ▸ this).1).symm
        have hys : ys = l1' ++ pyMinBy key x ys :: l2 := by
          have := hdec
          simp only [List.cons_append] at this
          exact (List.cons.injEq .. ▸ this).2
        have hxlt : key (pyMinBy key x ys) < key x :=
          ha ▸ hlt a (List.mem_cons_self _ _)
        refine ⟨x :: y :: l1', l2, ?_, ?_, ?_⟩
        · simp only [List.cons_append, ← hys]
        · intro w hw
          rcases List.mem_cons.1 hw with rfl | hw
          · exact hxlt
          · rcases List.mem_cons.1 hw with rfl | hw
            · exact lt_of_lt_of_le hxlt hyx
            · exact hlt w (ha ▸ List.mem_cons_of_mem _ hw)
        · intro w hw
          rcases List.mem_cons.1 hw with rfl | hw
          · exact hle w (List.mem_cons_self _ _)
          · rcases List.mem_cons.1 hw with rfl | hw
            · exact le_trans (hle x (List.mem_cons_self _ _)) hyx
            · exact hle w (List.mem_cons_of_mem _ hw)

end GEX

namespace GEX

/-! The interpolated crossing of a bracketing pair stays between the two
strikes. -/

theorem interpAt_between {a b : ℚ × ℚ} (hs : a.1 ≤ b.1) (hbr : isBracket a b) :
    a.1 ≤ interpAt a b ∧ interpAt a b ≤ b.1 := by
  unfold interpAt
  by_cases heq : b.2 = a.2
  · simp [heq, hs]
  · simp only [if_neg heq]
    have hD : b.2 - a.2 ≠ 0 := sub_ne_zero.2 heq
    rcases hbr with ⟨h1, h2⟩ | ⟨h1, h2⟩
    · have hDpos : 0 < b.2 - a.2 := sub_pos.2 (lt_of_le_of_ne (le_trans h1 h2) (Ne.symm heq))
      have hfrac0 : 0 ≤ (b.1 - a.1) * (-a.2) / (b.2 - a.2) :=
        div_nonneg (mul_nonneg (sub_nonneg.2 hs) (neg_nonneg.2 h1)) hDpos.le
      have hfrac1 : (b.1 - a.1) * (-a.2) / (b.2 - a.2) ≤ b.1 - a.1 := by
        rw [div_le_iff₀ hDpos]
        exact mul_le_mul_of_nonneg_left (by linarith) (sub_nonneg.2 hs)
      constructor <;> linarith
    · have hDneg : b.2 - a.2 < 0 := sub_neg.2 (lt_of_le_of_ne (le_trans h1 h2) heq)
      have hAle : (b.1 - a.1) * (-a.2) ≤ 0 :=
        mul_nonpos_iff.2 (Or.inl ⟨sub_nonneg.2 hs, neg_nonpos.2 h2⟩)
      have hfrac0 : 0 ≤ (b.1 - a.1) * (-a.2) / (b.2 - a.2) := by
        rw [div_nonneg_iff]
        exact Or.inr ⟨hAle, hDneg.le⟩
      have hfrac1 : (b.1 - a.1) * (-a.2) / (b.2 - a.2) ≤ b.1 - a.1 := by
        rw [div_le_iff_of_neg hDneg]
        exact mul_le_mul_of_nonneg_left (by linarith) (sub_nonneg.2 hs)
      constructor <;> linarith

/-- A crossing found by the scan over a sorted pair list lies between two
members of the list. -/
theorem findCrossing_bounds :
    ∀ (l : List (ℚ × ℚ)), l.Pairwise (fun a b => a.1 ≤ b.1) →
      ∀ z, findCrossing l = some z → ∃ a ∈ l, ∃ b ∈ l, a.1 ≤ z ∧ z ≤ b.1 := by
  intro l
  induction l with
  | nil => intro _ z h; simp [findCrossing] at h
  | cons x t ih =>
    cases t with
    | nil => intro _ z h; simp [findCrossing] at h
    | cons y t2 =>
      intro hp z h
      by_cases hbr : isBracket x y
      · simp only [findCrossing, if_pos hbr, Option.some.injEq] at h
        have hs : x.1 ≤ y.1 := (List.pairwise_cons.1 hp).1 y (List.mem_cons_self _ _)
        obtain ⟨hlo, hhi⟩ := interpAt_between hs hbr
        exact ⟨x, List.mem_cons_self _ _,
               y, List.mem_cons_of_mem _ (List.mem_cons_self _ _), h ▸ hlo, h ▸ hhi⟩
      · simp only [findCrossing, if_neg hbr] at h
        obtain ⟨a, ha, b, hb, h1, h2⟩ := ih (List.pairwise_cons.1 hp).2 z h
        exact ⟨a, List.mem_cons_of_mem _ ha, b, List.mem_cons_of_mem _ hb, h1, h2⟩

/-- Characterisation of the scan: either no adjacent pair brackets zero and
the scan fails, or the list splits around the first bracketing pair and the
scan returns its interpolated value. -/
theorem findCrossing_first :
    ∀ (l : List (ℚ × ℚ)),
      (findCrossing l = none ∧ l.Chain' (fun a b => ¬ isBracket a b)) ∨
      ∃ pre a b post, l = pre ++ a :: b :: post ∧ isBracket a b ∧
        (pre ++ [a]).Chain' (fun u v => ¬ isBracket u v) ∧
        findCrossing l = some (interpAt a b) := by
  intro l
  induction l with
  | nil => exact Or.inl ⟨rfl, List.chain'_nil⟩
  | cons x t ih =>
    cases t with
    | nil => exact Or.inl ⟨rfl, List.chain'_singleton x⟩
    | cons y t2 =>
      by_cases hbr : isBracket x y
      · refine Or.inr ⟨[], x, y, t2, rfl, hbr, List.chain'_singleton x, ?_⟩
        simp [findCrossing, if_pos hbr]
      · rcases ih with ⟨hnone, hch⟩ | ⟨pre, a, b, post, hdec, hab, hch, hval⟩
        · refine Or.inl ⟨?_, List.chain'_cons.2 ⟨hbr, hch⟩⟩
          simp [findCrossing, if_neg hbr, hnone]
        · refine Or.inr ⟨x :: pre, a, b, post, by rw [List.cons_append, ← hdec], hab, ?_, ?_⟩
          · rw [List.cons_append]
            refine List.chain'_cons'.2 ⟨?_, hch⟩
            intro w hw
            cases pre with
            | nil =>
              simp only [List.nil_append, List.head?_cons, Option.mem_def,
                Option.some.injEq] at hw
              have hya : y = a := by
                have := hdec
                simp only [List.nil_append] at this
                exact (List.cons.injEq .. ▸ this).1
              rw [← hw, ← hya]
              exact hbr
            | cons q pre' =>
              simp only [List.cons_append, List.head?_cons, Option.mem_def,
                Option.some.injEq] at hw
              have hyq : y = q := by
                have := hdec
                simp only [List.cons_append] at this
                exact (List.cons.injEq .. ▸ this).1
              rw [← hw, ← hyq]
              exact hbr
          · simp [findCrossing, if_neg hbr, hval]

end GEX

namespace GEX

/-- The smallest strike of the data (head of the ascending sort); `0` for the
empty dict, which the claims never use. -/
def minStrike (d : StrikesData) : ℚ :=
  match sortByStrike d with
  | [] => 0
  | x :: _ => x.1

/-- The largest strike of the data (last of the ascending sort). -/
def maxStrike (d : StrikesData) : ℚ :=
  match (sortByStrike d).getLast? with
  | some x => x.1
  | none => 0

theorem pairwise_head_le {x : ℚ × α} {t : List (ℚ × α)}
    (hp : (x :: t).Pairwise (fun a b => a.1 ≤ b.1)) {a : ℚ × α} (ha : a ∈ x :: t) :
    x.1 ≤ a.1 := by
  rcases List.mem_cons.1 ha with rfl | ha
  · exact le_refl _
  · exact (List.pairwise_cons.1 hp).1 a ha

theorem getLast?_mem : ∀ {l : List (ℚ × α)} {b : ℚ × α}, l.getLast? = some b → b ∈ l := by
  intro l
  induction l with
  | nil => intro b h; simp at h
  | cons x t ih =>
    intro b h
    cases t with
    | nil =>
      simp only [List.getLast?_singleton, Option.some.injEq] at h
      simp [h]
    | cons y t2 =>
      rw [List.getLast?_cons_cons] at h
      exact List.mem_cons_of_mem _ (ih h)

theorem pairwise_le_getLast? :
    ∀ {l : List (ℚ × α)}, l.Pairwise (fun a b => a.1 ≤ b.1) →
      ∀ a ∈ l, ∀ {b : ℚ × α}, l.getLast? = some b → a.1 ≤ b.1 := by
  intro l
  induction l with
  | nil => intro _ a ha; simp at ha
  | cons x t ih =>
    intro hp a ha b hb
    cases t with
    | nil =>
      simp only [List.getLast?_singleton, Option.some.injEq] at hb
      rcases List.mem_cons.1 ha with rfl | ha
      · rw [← hb]
      · simp at ha
    | cons y t2 =>
      rw [List.getLast?_cons_cons] at hb
      rcases List.mem_cons.1 ha with rfl | ha
      · exact le_trans (pairwise_head_le hp (List.mem_cons_of_mem _ (getLast?_mem hb)))
          (le_refl _)
      · exact ih (List.pairwise_cons.1 hp).2 a ha hb

theorem minStrike_le_of_mem {d : StrikesData} {se : ℚ × Entry}
    (h : se ∈ sortByStrike d) : minStrike d ≤ se.1 := by
  unfold minStrike
  rcases hsort : sortByStrike d with _ | ⟨x, t⟩
  · rw [hsort] at h; simp at h
  · rw [hsort] at h
    have hp := sortByStrike_pairwise d
    rw [hsort] at hp
    exact pairwise_head_le hp h

theorem le_maxStrike_of_mem {d : StrikesData} {se : ℚ × Entry}
    (h : se ∈ sortByStrike d) : se.1 ≤ maxStrike d := by
  unfold maxStrike
  rcases hlast : (sortByStrike d).getLast? with _ | b
  · rw [List.getLast?_eq_none_iff] at hlast
    rw [hlast] at h; simp at h
  · exact pairwise_le_getLast? (sortByStrike_pairwise d) se h hlast

/-- Members of the net-exposure list come from sorted strike records with the
same strike. -/
theorem mem_netGexByStrike {d : StrikesData} {a : ℚ × ℚ} (h : a ∈ netGexByStrike d) :
    ∃ se ∈ sortByStrike d, se.1 = a.1 := by
  obtain ⟨se, hse, hfa⟩ := List.mem_map.1 h
  exact ⟨se, hse, by rw [← hfa]⟩

/-- The net-exposure list is sorted by strike. -/
theorem netGexByStrike_pairwise (d : StrikesData) :
    (netGexByStrike d).Pairwise (fun a b => a.1 ≤ b.1) := by
  unfold netGexByStrike
  exact List.Pairwise.map _ (fun a b hab => hab) (sortByStrike_pairwise d)

end GEX

namespace GEX

/-! Contribution accounting for the v2.2 accumulating aggregation. -/

/-- Whether a strike row contributes at strike `s`: its key must be `s`, it
must have a first contract, and that contract must pass the `MINIMUM_OI`
filter. -/
def passingFirst (sc : StrikeContracts) (s : ℚ) : Option Contract :=
  if sc.1 = s then
    match firstContract sc.2 with
    | some c => if c.openInterest < MINIMUM_OI then none else some c
    | none => none
  else none

/-- All contracts contributing at strike `s` across an expiration map, in
processing order. -/
def contribs (m : ExpMap) (s : ℚ) : List Contract :=
  m.flatMap (fun es => es.2.filterMap (fun sc => passingFirst sc s))

/-- Record the call-side v2.2 contributions of a batch of contracts. -/
def addCallV22 (p : ℚ) (e : Entry) (cs : List Contract) : Entry :=
  { e with call_oi := e.call_oi + (cs.map (fun c => c.openInterest)).sum,
           call_gamma := e.call_gamma + (cs.map (fun c => c.gamma)).sum,
           call_gex := e.call_gex +
             (cs.map (fun c => c.gamma * c.openInterest * 100 * p * p * 0.01)).sum }

/-- Record the put-side v2.2 contributions of a batch of contracts. -/
def addPutV22 (p : ℚ) (e : Entry) (cs : List Contract) : Entry :=
  { e with put_oi := e.put_oi + (cs.map (fun c => c.openInterest)).sum,
           put_gamma := e.put_gamma + (cs.map (fun c => c.gamma)).sum,
           put_gex := e.put_gex +
             (cs.map (fun c => -(c.gamma * c.openInterest * 100 * p * p * 0.01))).sum }

theorem addCallV22_nil (p : ℚ) (e : Entry) : addCallV22 p e [] = e := by
  simp [addCallV22]

theorem addPutV22_nil (p : ℚ) (e : Entry) : addPutV22 p e [] = e := by
  simp [addPutV22]

theorem addCallV22_single (p : ℚ) (e : Entry) (c : Contract) :
    addCallV22 p e [c] =
      { e with call_oi := e.call_oi + c.openInterest,
               call_gamma := e.call_gamma + c.gamma,
               call_gex := e.call_gex + c.gamma * c.openInterest * 100 * p * p * 0.01 } := by
  simp [addCallV22]

theorem addPutV22_single (p : ℚ) (e : Entry) (c : Contract) :
    addPutV22 p e [c] =
      { e with put_oi := e.put_oi + c.openInterest,
               put_gamma := e.put_gamma + c.gamma,
               put_gex := e.put_gex + -(c.gamma * c.openInterest * 100 * p * p * 0.01) } := by
  simp [addPutV22]

theorem addCallV22_append (p : ℚ) (e : Entry) (l1 l2 : List Contract) :
    addCallV22 p (addCallV22 p e l1) l2 = addCallV22 p e (l1 ++ l2) := by
  cases e
  simp [addCallV22, add_assoc]

theorem addPutV22_append (p : ℚ) (e : Entry) (l1 l2 : List Contract) :
    addPutV22 p (addPutV22 p e l1) l2 = addPutV22 p e (l1 ++ l2) := by
  cases e
  simp [addPutV22, add_assoc]

theorem lookup_foldl_callV22 (p : ℚ) (l : List StrikeContracts) (d : StrikesData) (s : ℚ) :
    lookupEntry (l.foldl (fun a sc => stepCallV22 p a sc.1 (firstContract sc.2)) d) s =
      addCallV22 p (lookupEntry d s) (l.filterMap (fun sc => passingFirst sc s)) := by
  induction l generalizing d with
  | nil => simp [addCallV22_nil]
  | cons sc rest ih =>
    rw [List.foldl_cons, List.filterMap_cons]
    rcases hfc : firstContract sc.2 with _ | c
    · have hpf : passingFirst sc s = none := by
        unfold passingFirst
        rw [hfc]
        simp
      rw [hpf]
      exact ih d
    · by_cases hlow : c.openInterest < MINIMUM_OI
      · have hstep : stepCallV22 p d sc.1 (some c) = d := by
          simp [stepCallV22, hlow]
        have hpf : passingFirst sc s = none := by
          unfold passingFirst
          rw [hfc]
          by_cases hs : sc.1 = s <;> simp [hs, hlow]
        rw [hstep, hpf]
        exact ih d
      · have hstep : stepCallV22 p d sc.1 (some c) =
            setEntry d sc.1 (fun e =>
              { e with call_oi := e.call_oi + c.openInterest,
                       call_gamma := e.call_gamma + c.gamma,
                       call_gex := e.call_gex +
                         c.gamma * c.openInterest * 100 * p * p * 0.01 }) := by
          simp [stepCallV22, hlow]
        rw [hstep]
        by_cases hs : sc.1 = s
        · have hpf : passingFirst sc s = some c := by
            unfold passingFirst
            rw [hfc]
            simp [hs, hlow]
          rw [hpf, ih, lookupEntry_setEntry, if_pos hs,
            ← addCallV22_single p (lookupEntry d sc.1) c, hs, addCallV22_append]
          simp
        · have hpf : passingFirst sc s = none := by
            unfold passingFirst
            simp [hs]
          rw [hpf, ih, lookupEntry_setEntry, if_neg hs]

theorem lookup_foldl_putV22 (p : ℚ) (l : List StrikeContracts) (d : StrikesData) (s : ℚ) :
    lookupEntry (l.foldl (fun a sc => stepPutV22 p a sc.1 (firstContract sc.2)) d) s =
      addPutV22 p (lookupEntry d s) (l.filterMap (fun sc => passingFirst sc s)) := by
  induction l generalizing d with
  | nil => simp [addPutV22_nil]
  | cons sc rest ih =>
    rw [List.foldl_cons, List.filterMap_cons]
    rcases hfc : firstContract sc.2 with _ | c
    · have hpf : passingFirst sc s = none := by
        unfold passingFirst
        rw [hfc]
        simp
      rw [hpf]
      exact ih d
    · by_cases hlow : c.openInterest < MINIMUM_OI
      · have hstep : stepPutV22 p d sc.1 (some c) = d := by
          simp [stepPutV22, hlow]
        have hpf : passingFirst sc s = none := by
          unfold passingFirst
          rw [hfc]
          by_cases hs : sc.1 = s <;> simp [hs, hlow]
        rw [hstep, hpf]
        exact ih d
      · have hstep : stepPutV22 p d sc.1 (some c) =
            setEntry d sc.1 (fun e =>
              { e with put_oi := e.put_oi + c.openInterest,
                       put_gamma := e.put_gamma + c.gamma,
                       put_gex := e.put_gex +
                         -(c.gamma * c.openInterest * 100 * p * p * 0.01) }) := by
          simp [stepPutV22, hlow]
        rw [hstep]
        by_cases hs : sc.1 = s
        · have hpf : passingFirst sc s = some c := by
            unfold passingFirst
            rw [hfc]
            simp [hs, hlow]
          rw [hpf, ih, lookupEntry_setEntry, if_pos hs,
            ← addPutV22_single p (lookupEntry d sc.1) c, hs, addPutV22_append]
          simp
        · have hpf : passingFirst sc s = none := by
            unfold passingFirst
            simp [hs]
          rw [hpf, ih, lookupEntry_setEntry, if_neg hs]

theorem processCallsV22_lookup (p : ℚ) (m : ExpMap) (d : StrikesData) (s : ℚ) :
    lookupEntry (processCallsV22 p m d) s =
      addCallV22 p (lookupEntry d s) (contribs m s) := by
  induction m generalizing d with
  | nil => simp [processCallsV22, processMap, contribs, addCallV22_nil]
  | cons es m' ih =>
    have hstep : processCallsV22 p (es :: m') d =
        processCallsV22 p m'
          (es.2.foldl (fun a sc => stepCallV22 p a sc.1 (firstContract sc.2)) d) := rfl
    have hcontr : contribs (es :: m') s =
        es.2.filterMap (fun sc => passingFirst sc s) ++ contribs m' s := by
      simp [contribs]
    rw [hstep, ih, lookup_foldl_callV22, hcontr, addCallV22_append]

theorem processPutsV22_lookup (p : ℚ) (m : ExpMap) (d : StrikesData) (s : ℚ) :
    lookupEntry (processPutsV22 p m d) s =
      addPutV22 p (lookupEntry d s) (contribs m s) := by
  induction m generalizing d with
  | nil => simp [processPutsV22, processMap, contribs, addPutV22_nil]
  | cons es m' ih =>
    have hstep : processPutsV22 p (es :: m') d =
        processPutsV22 p m'
          (es.2.foldl (fun a sc => stepPutV22 p a sc.1 (firstContract sc.2)) d) := rfl
    have hcontr : contribs (es :: m') s =
        es.2.filterMap (fun sc => passingFirst sc s) ++ contribs m' s := by
      simp [contribs]
    rw [hstep, ih, lookup_foldl_putV22, hcontr, addPutV22_append]

end GEX

namespace GEX

/-! Machinery for the activity-filter invariant: a strike whose contracts all
fail the `MINIMUM_OI` filter never enters `strikes_data`, and every extracted
level is either a `strikes_data` key or the default underlying price. -/

/-- A strike row is low-activity when its first contract (if any) fails the
`MINIMUM_OI` filter. -/
def lowFirst (sc : StrikeContracts) : Prop :=
  ∀ c, firstContract sc.2 = some c → c.openInterest < MINIMUM_OI

instance (sc : StrikeContracts) : Decidable (lowFirst sc) := by
  unfold lowFirst
  rcases h : firstContract sc.2 with _ | c
  · exact isTrue (by intro c hc; simp at hc)
  · by_cases hp : c.openInterest < MINIMUM_OI
    · refine isTrue ?_
      intro c2 hc2
      injection hc2 with h2
      rw [← h2]
      exact hp
    · exact isFalse (fun hall => hp (hall c rfl))

/-- Every row keyed `s` anywhere in the expiration map is low-activity. -/
def lowActivityAt (m : ExpMap) (s : ℚ) : Prop :=
  ∀ es ∈ m, ∀ sc ∈ es.2, sc.1 = s → lowFirst sc

instance (m : ExpMap) (s : ℚ) : Decidable (lowActivityAt m s) := by
  unfold lowActivityAt
  infer_instance

theorem hasKey_stepCallV21_ne {d : StrikesData} {k s : ℚ} {c? : Option Contract}
    (hk : k ≠ s) : hasKey (stepCallV21 d k c?) s = hasKey d s := by
  rcases c? with _ | c
  · rfl
  · unfold stepCallV21
    by_cases hlow : c.openInterest < MINIMUM_OI
    · simp [hlow]
    · simp [hlow, hasKey_setEntry, hk]

theorem hasKey_stepPutV21_ne {d : StrikesData} {k s : ℚ} {c? : Option Contract}
    (hk : k ≠ s) : hasKey (stepPutV21 d k c?) s = hasKey d s := by
  rcases c? with _ | c
  · rfl
  · unfold stepPutV21
    by_cases hlow : c.openInterest < MINIMUM_OI
    · simp [hlow]
    · simp [hlow, hasKey_setEntry, hk]

theorem stepCallV21_low {d : StrikesData} {s : ℚ} {c? : Option Contract}
    (h : ∀ c, c? = some c → c.openInterest < MINIMUM_OI) : stepCallV21 d s c? = d := by
  rcases c? with _ | c
  · rfl
  · simp [stepCallV21, h c rfl]

theorem stepPutV21_low {d : StrikesData} {s : ℚ} {c? : Option Contract}
    (h : ∀ c, c? = some c → c.openInterest < MINIMUM_OI) : stepPutV21 d s c? = d := by
  rcases c? with _ | c
  · rfl
  · simp [stepPutV21, h c rfl]

/-- A step that skips low-activity rows at `s` and never creates key `s` from
other rows leaves membership of `s` unchanged across the whole nested loop. -/
theorem hasKey_processMap_of_low (step : StrikesData → ℚ → Option Contract → StrikesData)
    (s : ℚ)
    (h1 : ∀ d k c?, k ≠ s → hasKey (step d k c?) s = hasKey d s)
    (h2 : ∀ (d : StrikesData) (c? : Option Contract),
      (∀ c, c? = some c → c.openInterest < MINIMUM_OI) → step d s c? = d) :
    ∀ (m : ExpMap) (d : StrikesData), lowActivityAt m s →
      hasKey (processMap step m d) s = hasKey d s := by
  have hinner : ∀ (l : List StrikeContracts) (d : StrikesData),
      (∀ sc ∈ l, sc.1 = s → lowFirst sc) →
      hasKey (l.foldl (fun a sc => step a sc.1 (firstContract sc.2)) d) s = hasKey d s := by
    intro l
    induction l with
    | nil => intro d _; rfl
    | cons sc rest ihl =>
      intro d hl
      rw [List.foldl_cons,
        ihl _ (fun sc2 hm hs2 => hl sc2 (List.mem_cons_of_mem _ hm) hs2)]
      by_cases hks : sc.1 = s
      · rw [hks, h2 d _ (hl sc (List.mem_cons_self _ _) hks)]
      · exact h1 d sc.1 _ hks
  intro m
  induction m with
  | nil => intro d _; rfl
  | cons es m' ih =>
    intro d hlow
    have hstep : processMap step (es :: m') d =
        processMap step m'
          (es.2.foldl (fun a sc => step a sc.1 (firstContract sc.2)) d) := rfl
    rw [hstep, ih _ (fun es2 hm => hlow es2 (List.mem_cons_of_mem _ hm)),
      hinner es.2 d (fun sc hm hs2 => hlow es (List.mem_cons_self _ _) sc hm hs2)]

/-- A strike that is low-activity on both sides of the snapshot never enters
`strikes_data` in the v2.1 pipeline. -/
theorem hasKey_strikesDataV21_low (data : SnapshotData) (s : ℚ)
    (hc : lowActivityAt (data.callExpDateMap.getD []) s)
    (hp : lowActivityAt (data.putExpDateMap.getD []) s) :
    hasKey (strikesDataV21 data) s = false := by
  unfold strikesDataV21
  have hcall : ∀ (m : ExpMap) (d : StrikesData), lowActivityAt m s →
      hasKey (processCallsV21 m d) s = hasKey d s :=
    hasKey_processMap_of_low stepCallV21 s
      (fun d k c? hk => hasKey_stepCallV21_ne hk)
      (fun d c? h => stepCallV21_low h)
  have hput : ∀ (m : ExpMap) (d : StrikesData), lowActivityAt m s →
      hasKey (processPutsV21 m d) s = hasKey d s :=
    hasKey_processMap_of_low stepPutV21 s
      (fun d k c? hk => hasKey_stepPutV21_ne hk)
      (fun d c? h => stepPutV21_low h)
  rcases hcm : data.callExpDateMap with _ | cm <;>
    rcases hpm : data.putExpDateMap with _ | pm
  · rfl
  · rw [hpm] at hp
    simp only [Option.getD_some] at hp
    simp [hput pm [] hp, hasKey]
  · rw [hcm] at hc
    simp only [Option.getD_some] at hc
    simp [hcall cm [] hc, hasKey]
  · rw [hcm] at hc
    rw [hpm] at hp
    simp only [Option.getD_some] at hc hp
    rw [hput pm _ hp, hcall cm [] hc]
    rfl

end GEX

namespace GEX

theorem mem_filterMap_hasKey {d : StrikesData} {g : ℚ × Entry → Option (ℚ × ℚ)}
    (hg : ∀ se r, g se = some r → r.1 = se.1) {r : ℚ × ℚ}
    (h : r ∈ d.filterMap g) : hasKey d r.1 = true := by
  obtain ⟨se, hse, hgse⟩ := List.mem_filterMap.1 h
  rw [hg se r hgse]
  exact hasKey_of_mem (show (se.1, se.2) ∈ d from hse)

theorem callOiLevel_cases (d : StrikesData) (p : ℚ) :
    callOiLevel d p = p ∨ hasKey d (callOiLevel d p) = true := by
  unfold callOiLevel
  rcases h : callOiData d with _ | ⟨x, xs⟩
  · exact Or.inl rfl
  · right
    have hmem : pyMaxBy Prod.snd x xs ∈ callOiData d := by
      rw [h]; exact pyMaxBy_mem _ _ _
    refine mem_filterMap_hasKey ?_ hmem
    intro se r hr
    by_cases hc : 0 < se.2.call_oi
    · rw [if_pos hc] at hr
      injection hr with h2
      rw [← h2]
    · rw [if_neg hc] at hr
      cases hr

theorem putOiLevel_cases (d : StrikesData) (p : ℚ) :
    putOiLevel d p = p ∨ hasKey d (putOiLevel d p) = true := by
  unfold putOiLevel
  rcases h : putOiData d with _ | ⟨x, xs⟩
  · exact Or.inl rfl
  · right
    have hmem : pyMaxBy Prod.snd x xs ∈ putOiData d := by
      rw [h]; exact pyMaxBy_mem _ _ _
    refine mem_filterMap_hasKey ?_ hmem
    intro se r hr
    by_cases hc : 0 < se.2.put_oi
    · rw [if_pos hc] at hr
      injection hr with h2
      rw [← h2]
    · rw [if_neg hc] at hr
      cases hr

theorem posGexLevel_cases (d : StrikesData) (p : ℚ) :
    posGexLevel d p = p ∨ hasKey d (posGexLevel d p) = true := by
  unfold posGexLevel
  rcases h : callGexData d with _ | ⟨x, xs⟩
  · exact Or.inl rfl
  · right
    have hmem : pyMaxBy Prod.snd x xs ∈ callGexData d := by
      rw [h]; exact pyMaxBy_mem _ _ _
    refine mem_filterMap_hasKey ?_ hmem
    intro se r hr
    by_cases hc : 0 < se.2.call_gex
    · rw [if_pos hc] at hr
      injection hr with h2
      rw [← h2]
    · rw [if_neg hc] at hr
      cases hr

theorem negGexLevel_cases (d : StrikesData) (p : ℚ) :
    negGexLevel d p = p ∨ hasKey d (negGexLevel d p) = true := by
  unfold negGexLevel
  rcases h : putGexData d with _ | ⟨x, xs⟩
  · exact Or.inl rfl
  · right
    have hmem : pyMinBy Prod.snd x xs ∈ putGexData d := by
      rw [h]; exact pyMinBy_mem _ _ _
    refine mem_filterMap_hasKey ?_ hmem
    intro se r hr
    by_cases hc : se.2.put_gex < 0
    · rw [if_pos hc] at hr
      injection hr with h2
      rw [← h2]
    · rw [if_neg hc] at hr
      cases hr

theorem mem_zeroGammaCandidatesV21 {d : StrikesData} {p : ℚ} {r : ℚ × ℚ}
    (h : r ∈ zeroGammaCandidatesV21 d p) : hasKey d r.1 = true := by
  obtain ⟨se, hse, hgse⟩ := List.mem_filterMap.1 h
  have hfst : r.1 = se.1 := by
    by_cases hband : p - p * 0.05 ≤ se.1 ∧ se.1 ≤ p + p * 0.05
    · rw [if_pos hband] at hgse
      by_cases hact : se.2.call_gex ≠ 0 ∨ se.2.put_gex ≠ 0
      · rw [if_pos hact] at hgse
        injection hgse with h2
        rw [← h2]
      · rw [if_neg hact] at hgse
        cases hgse
    · rw [if_neg hband] at hgse
      cases hgse
  rw [hfst]
  exact hasKey_of_mem (show (se.1, se.2) ∈ d from mem_sortByStrike.1 hse)

theorem zeroGammaLevelV21_cases (d : StrikesData) (p : ℚ) :
    zeroGammaLevelV21 d p = p ∨ hasKey d (zeroGammaLevelV21 d p) = true := by
  unfold zeroGammaLevelV21
  rcases h : zeroGammaCandidatesV21 d p with _ | ⟨x, xs⟩
  · exact Or.inl rfl
  · right
    have hmem : pyMinBy (fun y => |y.2|) x xs ∈ zeroGammaCandidatesV21 d p := by
      rw [h]; exact pyMinBy_mem _ _ _
    exact mem_zeroGammaCandidatesV21 hmem

end GEX

namespace GEX

/-! Only the first contract of each strike row is ever read. -/

/-- Truncate every strike row of an expiration map to its first contract. -/
def truncExp (m : ExpMap) : ExpMap :=
  m.map (fun es => (es.1, es.2.map (fun sc => (sc.1, sc.2.take 1))))

theorem head?_take_one (l : List Contract) : (l.take 1).head? = l.head? := by
  cases l <;> rfl

theorem processMap_truncExp (step : StrikesData → ℚ → Option Contract → StrikesData)
    (m : ExpMap) (d : StrikesData) :
    processMap step (truncExp m) d = processMap step m d := by
  induction m generalizing d with
  | nil => rfl
  | cons es m' ih =>
    have h1 : processMap step (truncExp (es :: m')) d =
        processMap step (truncExp m')
          ((es.2.map (fun sc => (sc.1, sc.2.take 1))).foldl
            (fun a sc => step a sc.1 (firstContract sc.2)) d) := rfl
    have h2 : processMap step (es :: m') d =
        processMap step m'
          (es.2.foldl (fun a sc => step a sc.1 (firstContract sc.2)) d) := rfl
    rw [h1, h2, ih]
    congr 1
    rw [List.foldl_map]
    refine List.foldl_ext _ _ d ?_
    intro a sc _
    show step a sc.1 (firstContract (sc.2.take 1)) = step a sc.1 (firstContract sc.2)
    rw [show firstContract (sc.2.take 1) = firstContract sc.2 from head?_take_one sc.2]

/-- Helper: summing the negations of mapped values. -/
theorem sum_map_neg (l : List Contract) (f : Contract → ℚ) :
    (l.map (fun c => -(f c))).sum = -((l.map f).sum) := by
  induction l with
  | nil => simp
  | cons c cs ih => simp [ih]; ring

end GEX

namespace GEX

/-- C10: for every expiration and strike in the nested input structure, the
normalizer reads open interest and gamma only from the first contract in that
strike's contract list; any further contracts at the same strike within that
expiration are silently ignored and contribute nothing to the aggregate.
Formally: truncating every contract list to its first element leaves every
aggregation pass (v2.1 and v2.2, calls and puts) unchanged. -/
theorem only_first_contract_read (m : ExpMap) (d : StrikesData) (p : ℚ) :
    processCallsV21 (truncExp m) d = processCallsV21 m d ∧
    processPutsV21 (truncExp m) d = processPutsV21 m d ∧
    processCallsV22 p (truncExp m) d = processCallsV22 p m d ∧
    processPutsV22 p (truncExp m) d = processPutsV22 p m d :=
  ⟨processMap_truncExp _ m d, processMap_truncExp _ m d,
   processMap_truncExp _ m d, processMap_truncExp _ m d⟩

/-- C3: under the all-expirations policy (the v2.2 aggregation), the
per-strike open interest and gamma of the resulting record equal the sum of
those fields over every included (filter-passing) expiration's contract at
that strike — summation, not last-writer assignment. -/
theorem all_expirations_summation (cm pm : ExpMap) (p s : ℚ) :
    (lookupEntry (processPutsV22 p pm (processCallsV22 p cm [])) s).call_oi =
        ((contribs cm s).map (fun c => c.openInterest)).sum ∧
    (lookupEntry (processPutsV22 p pm (processCallsV22 p cm [])) s).call_gamma =
        ((contribs cm s).map (fun c => c.gamma)).sum ∧
    (lookupEntry (processPutsV22 p pm (processCallsV22 p cm [])) s).put_oi =
        ((contribs pm s).map (fun c => c.openInterest)).sum ∧
    (lookupEntry (processPutsV22 p pm (processCallsV22 p cm [])) s).put_gamma =
        ((contribs pm s).map (fun c => c.gamma)).sum := by
  rw [processPutsV22_lookup, processCallsV22_lookup]
  refine ⟨?_, ?_, ?_, ?_⟩ <;> simp [addCallV22, addPutV22, lookupEntry, Entry.init]

/-- C2 (amended): the v2.2 exposure calculator accumulates one term
`gamma * oi * 100 * price^2 * 0.01` per contributing contract (negated for
puts); the stored exposure is the sum of those per-contract terms, which
coincides with `callGamma * callOI * 100 * price^2 * 0.01` over the aggregate
fields exactly when at most one contract contributes at the strike. -/
theorem exposure_per_contract_sums (cm pm : ExpMap) (p s : ℚ) :
    (lookupEntry (processPutsV22 p pm (processCallsV22 p cm [])) s).call_gex =
        ((contribs cm s).map
          (fun c => c.gamma * c.openInterest * 100 * p * p * 0.01)).sum ∧
    (lookupEntry (processPutsV22 p pm (processCallsV22 p cm [])) s).put_gex =
        -(((contribs pm s).map
          (fun c => c.gamma * c.openInterest * 100 * p * p * 0.01)).sum) := by
  rw [processPutsV22_lookup, processCallsV22_lookup]
  constructor <;> simp [addCallV22, addPutV22, lookupEntry, Entry.init, sum_map_neg]

/-- A strike contributing under two expirations, used to separate the stored
exposure from the aggregate-field formula. -/
def cexC2 : ExpMap := [("e1", [(500, [⟨200, 1/10⟩])]), ("e2", [(500, [⟨400, 3/10⟩])])]

/-- C2 counterexample: with two expirations contributing at strike 500 and
price 10, the stored call exposure is 14000 while
`callGamma * callOI * 100 * price^2 * 0.01` over the aggregated fields is
24000 — the claim's formula does not hold of the aggregate. -/
theorem exposure_formula_counterexample :
    (lookupEntry (processCallsV22 10 cexC2 []) 500).call_gex = 14000 ∧
    (lookupEntry (processCallsV22 10 cexC2 []) 500).call_gamma *
        (lookupEntry (processCallsV22 10 cexC2 []) 500).call_oi *
        100 * (10 : ℚ) ^ 2 * 0.01 = 24000 ∧
    (lookupEntry (processCallsV22 10 cexC2 []) 500).call_gex ≠
      (lookupEntry (processCallsV22 10 cexC2 []) 500).call_gamma *
        (lookupEntry (processCallsV22 10 cexC2 []) 500).call_oi *
        100 * (10 : ℚ) ^ 2 * 0.01 := by
  norm_num [cexC2, processCallsV22, processMap, stepCallV22, setEntry, hasKey,
    dictUpdate, lookupEntry, firstContract, MINIMUM_OI, Entry.init]

end GEX

namespace GEX

/-- C4: for every non-empty filtered strike set, the returned zero crossing
lies within the closed interval from the smallest to the largest strike
considered, or equals the underlying price when no sign change exists. -/
theorem zero_crossing_within_range (d : StrikesData) (p : ℚ) (h : d ≠ []) :
    interpolate_zero_gamma d p = p ∨
    (minStrike d ≤ interpolate_zero_gamma d p ∧
     interpolate_zero_gamma d p ≤ maxStrike d) := by
  unfold interpolate_zero_gamma
  rcases hfc : findCrossing (netGexByStrike d) with _ | z
  · exact Or.inl rfl
  · right
    simp only [Option.getD_some]
    obtain ⟨a, ha, b, hb, h1, h2⟩ :=
      findCrossing_bounds _ (netGexByStrike_pairwise d) z hfc
    obtain ⟨sa, hsa, hsa1⟩ := mem_netGexByStrike ha
    obtain ⟨sb, hsb, hsb1⟩ := mem_netGexByStrike hb
    constructor
    · refine le_trans (minStrike_le_of_mem hsa) ?_
      rw [hsa1]
      exact h1
    · refine le_trans ?_ (le_maxStrike_of_mem hsb)
      rw [hsb1]
      exact h2

/-- Two strikes bracketing zero, for instantiating the range theorem. -/
def c4data : StrikesData := [(90, ⟨0, 0, 0, 0, -1, 0⟩), (100, ⟨0, 0, 0, 0, 1, 0⟩)]

theorem zero_crossing_within_range_witness :
    c4data ≠ [] ∧
    (interpolate_zero_gamma c4data 50 = 50 ∨
      (minStrike c4data ≤ interpolate_zero_gamma c4data 50 ∧
       interpolate_zero_gamma c4data 50 ≤ maxStrike c4data)) :=
  ⟨by simp [c4data], zero_crossing_within_range c4data 50 (by simp [c4data])⟩

/-- The zero-crossing procedure the claim describes, written from the
specification's words for comparison with the implemented
`interpolate_zero_gamma`: candidates are first restricted to strikes within
the 5% fractional band of the underlying price, the full filtered domain is
used when the band is empty, and only then is the bracket scan run. -/
def bandRestrictedInterp (d : StrikesData) (p : ℚ) : ℚ :=
  let all := netGexByStrike d
  let band := all.filter (fun sg => decide (p - p * 0.05 ≤ sg.1 ∧ sg.1 ≤ p + p * 0.05))
  let dom := if band = [] then all else band
  (findCrossing dom).getD p

/-- Four strikes whose first bracket inside the 5% band differs from the first
bracket of the full domain. -/
def cexC1 : StrikesData :=
  [(90, ⟨0, 0, 0, 0, -1, 0⟩), (96, ⟨0, 0, 0, 0, 1, 0⟩),
   (104, ⟨0, 0, 0, 0, -2, 0⟩), (110, ⟨0, 0, 0, 0, 2, 0⟩)]

/-- C1 counterexample: at underlying price 100, the implemented interpolator
returns 93 (the first bracket of the FULL domain, between strikes 90 and 96),
while the claimed band-first procedure would return 296/3 (the first bracket
inside the non-empty 5% band, between strikes 96 and 104): the interpolator
performs no band restriction. -/
theorem zero_crossing_band_counterexample :
    interpolate_zero_gamma cexC1 100 = 93 ∧
    bandRestrictedInterp cexC1 100 = 296 / 3 ∧
    interpolate_zero_gamma cexC1 100 ≠ bandRestrictedInterp cexC1 100 := by
  norm_num [cexC1, interpolate_zero_gamma, bandRestrictedInterp, netGexByStrike,
    sortByStrike, insertSorted, findCrossing, isBracket, interpAt, List.filter]

/-- C1 (amended): the v2.2 zero-crossing interpolator applies no price-band
restriction.  It scans the FULL filtered domain in ascending strike order:
either no adjacent pair of net exposures brackets zero and the result is the
underlying price, or the domain splits around the first bracketing pair
`(a, b)` and the result is `a.1` when the two net exposures are equal and
`a.1 + (b.1 - a.1) * (-a.2) / (b.2 - a.2)` otherwise. -/
theorem zero_crossing_scans_full_domain (d : StrikesData) (p : ℚ) :
    (interpolate_zero_gamma d p = p ∧
      (netGexByStrike d).Chain' (fun a b => ¬ isBracket a b)) ∨
    ∃ pre a b post, netGexByStrike d = pre ++ a :: b :: post ∧ isBracket a b ∧
      (pre ++ [a]).Chain' (fun u v => ¬ isBracket u v) ∧
      interpolate_zero_gamma d p = interpAt a b := by
  unfold interpolate_zero_gamma
  rcases findCrossing_first (netGexByStrike d) with ⟨hn, hch⟩ |
    ⟨pre, a, b, post, hdec, hab, hch, hval⟩
  · exact Or.inl ⟨by rw [hn]; rfl, hch⟩
  · exact Or.inr ⟨pre, a, b, post, hdec, hab, hch, by rw [hval]; rfl⟩

end GEX

namespace GEX

/-- C5 (amended): when no strike survives the activity filter, the v2.1
computation does not fail: every one of the five levels equals the underlying
price and the net exposure is 0.  No `degraded` flag exists — the returned
dict carries exactly the seven documented keys and nothing else. -/
theorem empty_filter_degrades_gracefully (data : SnapshotData)
    (h : strikesDataV21 data = []) :
    calculate_gex_levels data =
      [("call_oi", data.underlyingPrice.getD 610),
       ("pos_gex", data.underlyingPrice.getD 610),
       ("zero_gamma", data.underlyingPrice.getD 610),
       ("neg_gex", data.underlyingPrice.getD 610),
       ("put_oi", data.underlyingPrice.getD 610),
       ("qqq_price", data.underlyingPrice.getD 610),
       ("net_gex", 0)] := by
  unfold calculate_gex_levels
  rw [h]
  norm_num [callOiLevel, putOiLevel, posGexLevel, negGexLevel, zeroGammaLevelV21,
    callOiData, putOiData, callGexData, putGexData, zeroGammaCandidatesV21, sortByStrike]

/-- A snapshot in which every contract fails the `MINIMUM_OI = 100` filter. -/
def cexC5 : SnapshotData :=
  ⟨some 610, some [("e", [(600, [⟨50, 1/20⟩])])],
   some [("e", [(605, [⟨40, 3/50⟩])])], none⟩

/-- C5 counterexample: on a snapshot where no strike survives the filter, the
returned dict carries no `degraded` key at all — no diagnostic flag is
surfaced to the caller, contrary to the claim. -/
theorem no_degraded_flag_counterexample :
    strikesDataV21 cexC5 = [] ∧
    lookupLevel (calculate_gex_levels cexC5) "degraded" = none := by
  constructor
  · norm_num [cexC5, strikesDataV21, processCallsV21, processPutsV21, processMap,
      stepCallV21, stepPutV21, firstContract, MINIMUM_OI]
  · rfl

theorem empty_filter_degrades_gracefully_witness :
    strikesDataV21 cexC5 = [] ∧
    calculate_gex_levels cexC5 =
      [("call_oi", cexC5.underlyingPrice.getD 610),
       ("pos_gex", cexC5.underlyingPrice.getD 610),
       ("zero_gamma", cexC5.underlyingPrice.getD 610),
       ("neg_gex", cexC5.underlyingPrice.getD 610),
       ("put_oi", cexC5.underlyingPrice.getD 610),
       ("qqq_price", cexC5.underlyingPrice.getD 610),
       ("net_gex", 0)] :=
  ⟨by norm_num [cexC5, strikesDataV21, processCallsV21, processPutsV21, processMap,
      stepCallV21, stepPutV21, firstContract, MINIMUM_OI],
   empty_filter_degrades_gracefully cexC5
     (by norm_num [cexC5, strikesDataV21, processCallsV21, processPutsV21, processMap,
       stepCallV21, stepPutV21, firstContract, MINIMUM_OI])⟩

/-- The empty snapshot: no underlying price, no contract maps. -/
def emptySnap : SnapshotData := ⟨none, none, none, none⟩

/-- C6 counterexample: on the empty snapshot the core signals nothing — it
substitutes the hard-coded default price 610.0 and completes the level
computation, returning a full LevelSet.  No `DataError` path exists in
`calculate_gex_levels`. -/
theorem no_data_error_counterexample :
    calculate_gex_levels emptySnap =
      [("call_oi", 610), ("pos_gex", 610), ("zero_gamma", 610), ("neg_gex", 610),
       ("put_oi", 610), ("qqq_price", 610), ("net_gex", 0)] := by
  norm_num [emptySnap, calculate_gex_levels, strikesDataV21, callOiLevel, putOiLevel,
    posGexLevel, negGexLevel, zeroGammaLevelV21, callOiData, putOiData, callGexData,
    putGexData, zeroGammaCandidatesV21, sortByStrike]

/-- C6 (amended): for an empty or malformed snapshot (no underlying price and
no contract maps), the core does NOT signal a `DataError`: it substitutes the
default underlying price 610.0 and empty maps and computes the degenerate
LevelSet with every level 610 and net exposure 0. -/
theorem empty_snapshot_uses_defaults (data : SnapshotData)
    (h1 : data.underlyingPrice = none)
    (h2 : data.callExpDateMap = none)
    (h3 : data.putExpDateMap = none) :
    calculate_gex_levels data =
      [("call_oi", 610), ("pos_gex", 610), ("zero_gamma", 610), ("neg_gex", 610),
       ("put_oi", 610), ("qqq_price", 610), ("net_gex", 0)] := by
  have hd : strikesDataV21 data = [] := by
    unfold strikesDataV21
    rw [h2, h3]
  unfold calculate_gex_levels
  rw [hd, h1]
  norm_num [callOiLevel, putOiLevel, posGexLevel, negGexLevel, zeroGammaLevelV21,
    callOiData, putOiData, callGexData, putGexData, zeroGammaCandidatesV21, sortByStrike]

theorem empty_snapshot_uses_defaults_witness :
    emptySnap.underlyingPrice = none ∧ emptySnap.callExpDateMap = none ∧
    emptySnap.putExpDateMap = none ∧
    calculate_gex_levels emptySnap =
      [("call_oi", 610), ("pos_gex", 610), ("zero_gamma", 610), ("neg_gex", 610),
       ("put_oi", 610), ("qqq_price", 610), ("net_gex", 0)] :=
  ⟨rfl, rfl, rfl, empty_snapshot_uses_defaults emptySnap rfl rfl rfl⟩

/-- C7: the cross-instrument mapper uses ratio `nq_price / qqq_price` when a
live correlated price is supplied (and positive), the fallback constant 41.36
otherwise, and transforms exactly the five levels — `qqq_price` and `net_gex`
are not mapped — as `round(level * ratio / 25) * 25` with the configured tick
size `ROUND_TO = 25`. -/
theorem convert_to_nq_ratio_and_rounding (data0 data : SnapshotData) :
    (convert_to_nq (calculate_gex_levels data0) data).2 =
      (match data.nq_price with
       | some nq => if 0 < nq then nq / (data0.underlyingPrice.getD 610) else 41.36
       | none => 41.36) ∧
    (convert_to_nq (calculate_gex_levels data0) data).1 =
      [("call_oi",
        (pyRound (dictGet (calculate_gex_levels data0) "call_oi" *
          (convert_to_nq (calculate_gex_levels data0) data).2 / 25) : ℚ) * 25),
       ("pos_gex",
        (pyRound (dictGet (calculate_gex_levels data0) "pos_gex" *
          (convert_to_nq (calculate_gex_levels data0) data).2 / 25) : ℚ) * 25),
       ("zero_gamma",
        (pyRound (dictGet (calculate_gex_levels data0) "zero_gamma" *
          (convert_to_nq (calculate_gex_levels data0) data).2 / 25) : ℚ) * 25),
       ("neg_gex",
        (pyRound (dictGet (calculate_gex_levels data0) "neg_gex" *
          (convert_to_nq (calculate_gex_levels data0) data).2 / 25) : ℚ) * 25),
       ("put_oi",
        (pyRound (dictGet (calculate_gex_levels data0) "put_oi" *
          (convert_to_nq (calculate_gex_levels data0) data).2 / 25) : ℚ) * 25)] :=
  ⟨rfl, rfl⟩

end GEX

namespace GEX

/-- C8 (amended): a strike whose open interest is below `MINIMUM_OI` on both
the call side and the put side never appears as any of the five extracted
levels, PROVIDED it differs from the underlying price — the underlying price
is the default level value, so a low-activity strike that happens to equal it
does appear (see the counterexample). -/
theorem low_oi_strike_never_a_level (data : SnapshotData) (s : ℚ)
    (hc : lowActivityAt (data.callExpDateMap.getD []) s)
    (hp : lowActivityAt (data.putExpDateMap.getD []) s)
    (hs : s ≠ data.underlyingPrice.getD 610) :
    dictGet (calculate_gex_levels data) "call_oi" ≠ s ∧
    dictGet (calculate_gex_levels data) "pos_gex" ≠ s ∧
    dictGet (calculate_gex_levels data) "zero_gamma" ≠ s ∧
    dictGet (calculate_gex_levels data) "neg_gex" ≠ s ∧
    dictGet (calculate_gex_levels data) "put_oi" ≠ s := by
  have hkey : hasKey (strikesDataV21 data) s = false :=
    hasKey_strikesDataV21_low data s hc hp
  have check : ∀ lvl : ℚ,
      (lvl = data.underlyingPrice.getD 610 ∨
        hasKey (strikesDataV21 data) lvl = true) → lvl ≠ s := by
    intro lvl hcases h
    subst h
    rcases hcases with h1 | h1
    · exact hs h1
    · rw [hkey] at h1
      cases h1
  refine ⟨?_, ?_, ?_, ?_, ?_⟩
  · exact check _ (callOiLevel_cases (strikesDataV21 data) (data.underlyingPrice.getD 610))
  · exact check _ (posGexLevel_cases (strikesDataV21 data) (data.underlyingPrice.getD 610))
  · exact check _ (zeroGammaLevelV21_cases (strikesDataV21 data) (data.underlyingPrice.getD 610))
  · exact check _ (negGexLevel_cases (strikesDataV21 data) (data.underlyingPrice.getD 610))
  · exact check _ (putOiLevel_cases (strikesDataV21 data) (data.underlyingPrice.getD 610))

/-- A snapshot whose only strike, 610, equals the underlying price and is
below `MINIMUM_OI` on both sides. -/
def cexC8 : SnapshotData :=
  ⟨some 610, some [("e", [(610, [⟨5, 1⟩])])], some [("e", [(610, [⟨5, 1⟩])])], none⟩

/-- C8 counterexample: strike 610 has open interest 5 on both sides — below
`MINIMUM_OI = 100` — yet it appears as EVERY extracted level, because it
coincides with the underlying price, which is the default value used when the
filtered sets are empty. -/
theorem low_oi_default_counterexample :
    lowActivityAt (cexC8.callExpDateMap.getD []) 610 ∧
    lowActivityAt (cexC8.putExpDateMap.getD []) 610 ∧
    dictGet (calculate_gex_levels cexC8) "call_oi" = 610 ∧
    dictGet (calculate_gex_levels cexC8) "pos_gex" = 610 ∧
    dictGet (calculate_gex_levels cexC8) "zero_gamma" = 610 ∧
    dictGet (calculate_gex_levels cexC8) "neg_gex" = 610 ∧
    dictGet (calculate_gex_levels cexC8) "put_oi" = 610 := by
  refine ⟨by decide, by decide, ?_, ?_, ?_, ?_, ?_⟩ <;>
    norm_num [cexC8, calculate_gex_levels, strikesDataV21, processCallsV21,
      processPutsV21, processMap, stepCallV21, stepPutV21, firstContract, MINIMUM_OI,
      callOiLevel, putOiLevel, posGexLevel, negGexLevel, zeroGammaLevelV21,
      callOiData, putOiData, callGexData, putGexData, zeroGammaCandidatesV21,
      sortByStrike, dictGet]

/-- A snapshot with one low-activity strike (600) and one active strike (620)
on the call side. -/
def c8snap : SnapshotData :=
  ⟨some 610, some [("e", [(600, [⟨50, 1⟩]), (620, [⟨500, 1⟩])])],
   some [("e", [(620, [⟨300, 1⟩])])], none⟩

theorem low_oi_strike_never_a_level_witness :
    lowActivityAt (c8snap.callExpDateMap.getD []) 600 ∧
    lowActivityAt (c8snap.putExpDateMap.getD []) 600 ∧
    (600 : ℚ) ≠ c8snap.underlyingPrice.getD 610 ∧
    (dictGet (calculate_gex_levels c8snap) "call_oi" ≠ 600 ∧
     dictGet (calculate_gex_levels c8snap) "pos_gex" ≠ 600 ∧
     dictGet (calculate_gex_levels c8snap) "zero_gamma" ≠ 600 ∧
     dictGet (calculate_gex_levels c8snap) "neg_gex" ≠ 600 ∧
     dictGet (calculate_gex_levels c8snap) "put_oi" ≠ 600) :=
  ⟨by decide, by decide, by decide,
   low_oi_strike_never_a_level c8snap 600 (by decide) (by decide) (by decide)⟩

/-- First element of the list attaining the maximal second component: the list
splits as `l1 ++ (t, v) :: l2` with everything before strictly smaller and
everything at most `v`. -/
def firstMax (l : List (ℚ × ℚ)) (t : ℚ) : Prop :=
  ∃ v l1 l2, l = l1 ++ (t, v) :: l2 ∧ (∀ y ∈ l1, y.2 < v) ∧ (∀ y ∈ l, y.2 ≤ v)

/-- First element of the list attaining the minimal second component. -/
def firstMin (l : List (ℚ × ℚ)) (t : ℚ) : Prop :=
  ∃ v l1 l2, l = l1 ++ (t, v) :: l2 ∧ (∀ y ∈ l1, v < y.2) ∧ (∀ y ∈ l, v ≤ y.2)

/-- C9 (amended): each extremum level is the FIRST strike in dict insertion
order attaining the extremum — Python's `max`/`min` keep the earliest maximal
or minimal element — not the lowest such strike. -/
theorem extractor_picks_first_in_insertion_order (data : SnapshotData) :
    (callOiData (strikesDataV21 data) ≠ [] →
      firstMax (callOiData (strikesDataV21 data))
        (dictGet (calculate_gex_levels data) "call_oi")) ∧
    (putOiData (strikesDataV21 data) ≠ [] →
      firstMax (putOiData (strikesDataV21 data))
        (dictGet (calculate_gex_levels data) "put_oi")) ∧
    (callGexData (strikesDataV21 data) ≠ [] →
      firstMax (callGexData (strikesDataV21 data))
        (dictGet (calculate_gex_levels data) "pos_gex")) ∧
    (putGexData (strikesDataV21 data) ≠ [] →
      firstMin (putGexData (strikesDataV21 data))
        (dictGet (calculate_gex_levels data) "neg_gex")) := by
  refine ⟨?_, ?_, ?_, ?_⟩
  · intro hne
    rcases h : callOiData (strikesDataV21 data) with _ | ⟨x, xs⟩
    · exact absurd h hne
    · have hlvl : dictGet (calculate_gex_levels data) "call_oi" =
          (pyMaxBy Prod.snd x xs).1 := by
        show callOiLevel (strikesDataV21 data) (data.underlyingPrice.getD 610) = _
        unfold callOiLevel
        rw [h]
      rw [hlvl]
      obtain ⟨l1, l2, hdec, hlt, hle⟩ := pyMaxBy_first Prod.snd x xs
      exact ⟨(pyMaxBy Prod.snd x xs).2, l1, l2, hdec, hlt, hle⟩
  · intro hne
    rcases h : putOiData (strikesDataV21 data) with _ | ⟨x, xs⟩
    · exact absurd h hne
    · have hlvl : dictGet (calculate_gex_levels data) "put_oi" =
          (pyMaxBy Prod.snd x xs).1 := by
        show putOiLevel (strikesDataV21 data) (data.underlyingPrice.getD 610) = _
        unfold putOiLevel
        rw [h]
      rw [hlvl]
      obtain ⟨l1, l2, hdec, hlt, hle⟩ := pyMaxBy_first Prod.snd x xs
      exact ⟨(pyMaxBy Prod.snd x xs).2, l1, l2, hdec, hlt, hle⟩
  · intro hne
    rcases h : callGexData (strikesDataV21 data) with _ | ⟨x, xs⟩
    · exact absurd h hne
    · have hlvl : dictGet (calculate_gex_levels data) "pos_gex" =
          (pyMaxBy Prod.snd x xs).1 := by
        show posGexLevel (strikesDataV21 data) (data.underlyingPrice.getD 610) = _
        unfold posGexLevel
        rw [h]
      rw [hlvl]
      obtain ⟨l1, l2, hdec, hlt, hle⟩ := pyMaxBy_first Prod.snd x xs
      exact ⟨(pyMaxBy Prod.snd x xs).2, l1, l2, hdec, hlt, hle⟩
  · intro hne
    rcases h : putGexData (strikesDataV21 data) with _ | ⟨x, xs⟩
    · exact absurd h hne
    · have hlvl : dictGet (calculate_gex_levels data) "neg_gex" =
          (pyMinBy Prod.snd x xs).1 := by
        show negGexLevel (strikesDataV21 data) (data.underlyingPrice.getD 610) = _
        unfold negGexLevel
        rw [h]
      rw [hlvl]
      obtain ⟨l1, l2, hdec, hlt, hle⟩ := pyMinBy_first Prod.snd x xs
      exact ⟨(pyMinBy Prod.snd x xs).2, l1, l2, hdec, hlt, hle⟩

/-- Two strikes tying at call open interest 500, inserted with the HIGHER
strike (620) first. -/
def cexC9 : SnapshotData :=
  ⟨some 610, some [("e", [(620, [⟨500, 1⟩]), (600, [⟨500, 1⟩])])], none, none⟩

/-- C9 counterexample: strikes 620 and 600 tie at call open interest 500; the
extractor returns 620 — the first in dict insertion order — not the lowest
strike 600 the claim requires. -/
theorem tie_break_counterexample :
    (lookupEntry (strikesDataV21 cexC9) 600).call_oi = 500 ∧
    (lookupEntry (strikesDataV21 cexC9) 620).call_oi = 500 ∧
    dictGet (calculate_gex_levels cexC9) "call_oi" = 620 := by
  refine ⟨?_, ?_, ?_⟩ <;>
    norm_num [cexC9, calculate_gex_levels, strikesDataV21, processCallsV21,
      processPutsV21, processMap, stepCallV21, stepPutV21, firstContract, MINIMUM_OI,
      setEntry, hasKey, dictUpdate, lookupEntry, Entry.init, callOiLevel, callOiData,
      pyMaxBy, dictGet, List.filterMap_cons, List.foldl_cons, List.foldl_nil]

theorem cexC9_callOiData :
    callOiData (strikesDataV21 cexC9) = [(620, 500), (600, 500)] := by
  norm_num [cexC9, strikesDataV21, processCallsV21, processPutsV21, processMap,
    stepCallV21, stepPutV21, firstContract, MINIMUM_OI, setEntry, hasKey,
    dictUpdate, Entry.init, callOiData, List.filterMap_cons]

theorem extractor_picks_first_witness :
    callOiData (strikesDataV21 cexC9) ≠ [] ∧
    firstMax (callOiData (strikesDataV21 cexC9))
      (dictGet (calculate_gex_levels cexC9) "call_oi") :=
  ⟨by rw [cexC9_callOiData]; simp,
   (extractor_picks_first_in_insertion_order cexC9).1
     (by rw [cexC9_callOiData]; simp)⟩

end GEX
